import Mathlib

/-!
Verification of the SimpleVox voice-matching library against its
natural-language specification.  The definitions below are shallow
embeddings of the C++ sources:

* `src/utility/detail/simplevox_dtw.h`   — `calcDTW` (DTW distance)
* `src/utility/simplevox_vad.cpp`        — `VadEngine` state machine
* the MFCC translation unit              — `VerifyMfccConfig`,
  `MfccEngine::init/normalize/saveFile/loadFile`

C `int` / `int32_t` values are modelled as `ℤ`, unsigned accumulators and
step counts of the DTW as `ℕ` (they are non-negative throughout and no
claim exercises wrap-around), bytes of the feature file as `ℕ` values
below 256, and `float` data of `normalize` as exact rationals.
-/

namespace SimpleVox

/-! ## DTW distance (`detail/simplevox_dtw.h`)

`calcDTW` is templated over feature types and obtains each cell cost from
the float-valued helper `CosineDistance(InnerProduct ...)` (a value in
`0 .. 2000` by its documentation).  The dynamic program itself is pure
integer code; it is embedded here with the per-cell cost supplied as an
abstract function `cost i j` of the two frame indices, which models
`CosineDistance(InnerProduct(f1.feature(i), dim, f2.feature(j)), ...)`. -/

/-- The predecessor comparison of `calcDTW` (simplevox_dtw.h lines 84-98):
first `step_distances[j]` (the up cell `(i-1,j)`) is compared with
`prev_step_dist` (the left cell `(i,j-1)`), keeping the up cell only when
strictly smaller; then `step_distances[j-1]` (the diagonal cell
`(i-1,j-1)`) replaces the winner only when strictly smaller. -/
def dtwPick (dUp cUp dLeft cLeft dDiag cDiag : ℕ) : ℕ × ℕ :=
  let first := if dUp < dLeft then (dUp, cUp) else (dLeft, cLeft)
  if dDiag < first.1 then (dDiag, cDiag) else first

/-- The predecessor selection exactly as the specification words it
("select the one with the smallest distance; on equality, prefer the
diagonal, then the up move"): diagonal wins all ties, then up, then
left.  Written from the spec for comparison with `dtwPick`. -/
def dtwPickSpec (dUp cUp dLeft cLeft dDiag cDiag : ℕ) : ℕ × ℕ :=
  if dDiag ≤ dUp ∧ dDiag ≤ dLeft then (dDiag, cDiag)
  else if dUp ≤ dLeft then (dUp, cUp)
  else (dLeft, cLeft)

/-- The tie-breaking rule the code actually implements, written out
directly: the strict minimum wins; on equality the left cell is
preferred over the up cell, and the diagonal cell is selected only when
strictly smaller than both. -/
def dtwPickAmended (dUp cUp dLeft cLeft dDiag cDiag : ℕ) : ℕ × ℕ :=
  if dDiag < dUp ∧ dDiag < dLeft then (dDiag, cDiag)
  else if dUp < dLeft then (dUp, cUp)
  else (dLeft, cLeft)

/-- Base row of the DP (simplevox_dtw.h lines 65-71): starting from the
seed, entry `j` carries distance `D[j-1] + cost 0 j` and step count `j`.
The first argument of the recursion is the running `D[j-1]`, the second
the column index `j`, the third the number of remaining columns. -/
def dtwBaseRowAux (c0 : ℕ → ℕ) : ℕ → ℕ → ℕ → List (ℕ × ℕ)
  | _, _, 0 => []
  | prevD, j, Nat.succ rem =>
    (prevD + c0 j, j) :: dtwBaseRowAux c0 (prevD + c0 j) (j + 1) rem

/-- The full base row `i = 0` of length `n` (simplevox_dtw.h lines
62-71): the seed cell is `(2 * cost 0 0, 0)`. -/
def dtwBaseRow (c0 : ℕ → ℕ) (n : ℕ) : List (ℕ × ℕ) :=
  (2 * c0 0, 0) :: dtwBaseRowAux c0 (2 * c0 0) 1 (n - 1)

/-- Inner loop of one DP row (simplevox_dtw.h lines 80-108).  `diag`
holds `(D,C)[i-1][j-1]`, `left` the freshly computed `(D,C)[i][j-1]`
(`prev_step_dist`, `prev_step_count`), and the list argument the stale
entries `(D,C)[i-1][j ..]`.  Output: the new row entries from column
`j-1` on. -/
def dtwRowAux (ci : ℕ → ℕ) : ℕ → ℕ × ℕ → ℕ × ℕ → List (ℕ × ℕ) → List (ℕ × ℕ)
  | _, _, left, [] => [left]
  | j, diag, left, up :: rest =>
    let sel := dtwPick up.1 up.2 left.1 left.2 diag.1 diag.2
    left :: dtwRowAux ci (j + 1) up (sel.1 + ci j, sel.2 + 1) rest

/-- One full row update `i ≥ 1` (simplevox_dtw.h lines 74-110): column 0
of the new row is `(D[i-1][0] + cost i 0, C[i-1][0] + 1)`. -/
def dtwRowStep (ci : ℕ → ℕ) : List (ℕ × ℕ) → List (ℕ × ℕ)
  | [] => []
  | d0 :: rest => dtwRowAux ci 1 d0 (d0.1 + ci 0, d0.2 + 1) rest

/-- Rows `i = 1 .. m-1` of the DP, applied to the base row. -/
def dtwIter (cost : ℕ → ℕ → ℕ) : ℕ → ℕ → List (ℕ × ℕ) → List (ℕ × ℕ)
  | _, 0, row => row
  | i, Nat.succ rem, row => dtwIter cost (i + 1) rem (dtwRowStep (cost i) row)

/-- `calcDTW` (simplevox_dtw.h lines 34-113).  `dim1, dim2, size1, size2`
are `feature1.dimension(), feature2.dimension(), feature1.size(),
feature2.size()` (C `int`s), and `cost i j` the float-derived cell cost
described above.  The three input gates return `UINT32_MAX =
4294967295`.  The final statement of the source divides
`step_distances[last]` by `step_counts[last]`; when that step count is
zero the C division is undefined behaviour, which is modelled by
returning `none`.  The `nothrow` allocation of the two rolling rows is
modelled as succeeding. -/
def calcDTW (cost : ℕ → ℕ → ℕ) (dim1 dim2 size1 size2 : ℤ) : Option ℕ :=
  if dim1 ≠ dim2 then some 4294967295
  else if size1 ≤ 0 ∨ size2 ≤ 0 then some 4294967295
  else if size1 > 3 * size2 ∨ 3 * size1 < size2 then some 4294967295
  else
    match (dtwIter cost 1 (size1.toNat - 1) (dtwBaseRow (cost 0) size2.toNat)).getLast? with
    | none => none
    | some dc => if dc.2 = 0 then none else some (dc.1 / dc.2)

/-- Claim C1 (counterexample): at a three-way distance tie (all three
predecessor distances 0, step counts 6 for up, 7 for left, 5 for the
diagonal) the comparison of `calcDTW` carries the left predecessor's
step count 7 forward, whereas the claimed tie order (diagonal first)
would carry the diagonal's count 5. -/
theorem dtwPick_tie_counterexample :
    dtwPick 0 6 0 7 0 5 = (0, 7) ∧ dtwPickSpec 0 6 0 7 0 5 = (0, 5) := by
  constructor <;> rfl

/-- Claim C1 (amended): at every inner cell the comparison of `calcDTW`
selects a predecessor of minimal accumulated distance and carries its
step count forward, but ties break the other way round than claimed: the
left predecessor is preferred over the up one, and the diagonal is
selected only when its distance is strictly smaller than both. -/
theorem dtwPick_characterization (dUp cUp dLeft cLeft dDiag cDiag : ℕ) :
    dtwPick dUp cUp dLeft cLeft dDiag cDiag
      = dtwPickAmended dUp cUp dLeft cLeft dDiag cDiag ∧
    (dtwPick dUp cUp dLeft cLeft dDiag cDiag).1 = min dDiag (min dUp dLeft) := by
  by_cases hUL : dUp < dLeft <;>
    by_cases hDU : dDiag < dUp <;>
      by_cases hDL : dDiag < dLeft <;>
        simp [dtwPick, dtwPickAmended, hUL, hDU, hDL, Prod.mk.injEq] <;>
          omega

/-- Claim C2: comparing a single-frame feature with itself passes all
three input gates (`m = n = 1`), the DP degenerates to the seed cell
with step count `0`, and the final statement of `calcDTW` divides by
zero (modelled as `none`) instead of returning the distance `0` required
by the specification's identity law.  The cell cost of a frame against
itself is `0` (cosine distance of identical vectors). -/
theorem calcDTW_single_frame_div_by_zero :
    calcDTW (fun _ _ => 0) 12 12 1 1 = none := by
  rfl

/-! ## MFCC feature container and file codec

`MfccFeature` holds `frame_num`, `coef_num` (C `int`s) and the dense
row-major `int16` matrix.  A file is modelled as the list of its bytes
(each a `ℕ` below 256).  Disk I/O always succeeds in the model; a short
read is a too-short byte list. -/

structure MfccFeature where
  frame_num : ℤ
  coef_num : ℤ
  feature : List ℤ
  deriving DecidableEq

/-- Little-endian bytes of a signed 32-bit value, as `fwrite(&v, 4, 1)`
lays them out. -/
def encodeI32LE (v : ℤ) : List ℕ :=
  let u := (v % 4294967296).toNat
  [u % 256, u / 256 % 256, u / 65536 % 256, u / 16777216 % 256]

/-- Little-endian bytes of a signed 16-bit value. -/
def encodeI16LE (v : ℤ) : List ℕ :=
  let u := (v % 65536).toNat
  [u % 256, u / 256 % 256]

/-- The `int16` matrix written element by element, two bytes each. -/
def encodeMatrix : List ℤ → List ℕ
  | [] => []
  | v :: rest => encodeI16LE v ++ encodeMatrix rest

/-- Signed 32-bit little-endian value of the first four bytes of `b`. -/
def decodeI32LE (b : List ℕ) : ℤ :=
  let u := b.getD 0 0 + 256 * b.getD 1 0 + 65536 * b.getD 2 0 + 16777216 * b.getD 3 0
  if u < 2147483648 then (u : ℤ) else (u : ℤ) - 4294967296

/-- Signed 16-bit little-endian value of two bytes. -/
def decodeI16LE (b0 b1 : ℕ) : ℤ :=
  let u := b0 + 256 * b1
  if u < 32768 then (u : ℤ) else (u : ℤ) - 65536

/-- Byte pairs decoded back into `int16` values. -/
def decodeI16List : List ℕ → List ℤ
  | b0 :: b1 :: rest => decodeI16LE b0 b1 :: decodeI16List rest
  | _ => []

/-- `MfccEngine::saveFile`: the version tag `0x01` (`MfccTag::VERSION1`),
then `size` and `coef_num` as signed 32-bit little-endian, then the
row-major `int16` matrix.  `mfcc.feature` holds the
`frame_num * coef_num` buffer entries that the source writes. -/
def MfccEngine.saveFile (mfcc : MfccFeature) : List ℕ :=
  1 :: (encodeI32LE mfcc.frame_num ++ (encodeI32LE mfcc.coef_num ++ encodeMatrix mfcc.feature))

/-- `MfccEngine::loadFile`: reads one tag byte, two signed 32-bit
little-endian header fields and `size * coef_num` `int16` values; any
short read yields `none`.  The source reads the tag byte but never
compares it with `MfccTag::VERSION1`.  A negative `size * coef_num`
makes the `fread` count comparison fail, hence `none`; the heap
allocation of the matrix is modelled as succeeding. -/
def MfccEngine.loadFile (bytes : List ℕ) : Option MfccFeature :=
  if bytes.length < 9 then none
  else
    let size := decodeI32LE ((bytes.drop 1).take 4)
    let coef := decodeI32LE ((bytes.drop 5).take 4)
    let rest := bytes.drop 9
    let data_num := size * coef
    if data_num < 0 then none
    else if rest.length < 2 * data_num.toNat then none
    else some ⟨size, coef, decodeI16List (rest.take (2 * data_num.toNat))⟩

/-- Claim C3: `loadFile` accepts a file whose version tag is `0x02`: the
tag byte is read but never compared with `VERSION1`, so the 11-byte file
`02 01 00 00 00 01 00 00 00 07 00` (tag 2, one frame, one coefficient,
value 7) loads as a feature instead of being refused as the
specification requires. -/
theorem loadFile_accepts_unknown_tag :
    MfccEngine.loadFile [2, 1, 0, 0, 0, 1, 0, 0, 0, 7, 0]
      = some ⟨1, 1, [7]⟩ := by
  rfl

theorem decodeI32LE_encodeI32LE (v : ℤ) (h0 : 0 ≤ v) (h1 : v < 2147483648) :
    decodeI32LE (encodeI32LE v) = v := by
  have hv : v % 4294967296 = v := Int.emod_eq_of_lt h0 (by omega)
  unfold decodeI32LE encodeI32LE
  rw [hv]
  simp only [List.getD_cons_zero, List.getD_cons_succ]
  split_ifs <;> omega

theorem decodeI16LE_encodeI16LE (v : ℤ) (h0 : -32768 ≤ v) (h1 : v < 32768) :
    decodeI16LE ((v % 65536).toNat % 256) ((v % 65536).toNat / 256 % 256) = v := by
  by_cases h : (v % 65536).toNat % 256 + 256 * ((v % 65536).toNat / 256 % 256) < 32768 <;>
    simp [decodeI16LE, h] <;> omega

theorem decodeI16List_encodeMatrix (l : List ℤ)
    (h : ∀ v ∈ l, -32768 ≤ v ∧ v < 32768) :
    decodeI16List (encodeMatrix l) = l := by
  induction l with
  | nil => rfl
  | cons x xs ih =>
    have hx := h x (by simp)
    have hxs : ∀ v ∈ xs, -32768 ≤ v ∧ v < 32768 := fun v hv => h v (by simp [hv])
    simp only [encodeMatrix, encodeI16LE, List.cons_append, decodeI16List,
      List.cons.injEq]
    exact ⟨decodeI16LE_encodeI16LE x hx.1 hx.2, ih hxs⟩

theorem encodeMatrix_length (l : List ℤ) :
    (encodeMatrix l).length = 2 * l.length := by
  induction l with
  | nil => rfl
  | cons x xs ih => simp [encodeMatrix, encodeI16LE, ih]; omega

/-- Claim C6: saving a feature with positive dimensions and in-range
`int16` entries and loading the result restores the identical feature,
and the written file is the tag byte `0x01` followed by the two signed
32-bit little-endian header fields and the row-major `int16` matrix. -/
theorem save_load_roundtrip (F : MfccFeature)
    (hfr : 0 < F.frame_num) (hco : 0 < F.coef_num)
    (hfr2 : F.frame_num < 2147483648) (hco2 : F.coef_num < 2147483648)
    (hprod : F.frame_num * F.coef_num < 2147483648)
    (hlen : (F.feature.length : ℤ) = F.frame_num * F.coef_num)
    (hvals : ∀ v ∈ F.feature, -32768 ≤ v ∧ v < 32768) :
    MfccEngine.loadFile (MfccEngine.saveFile F) = some F ∧
    MfccEngine.saveFile F
      = 1 :: (encodeI32LE F.frame_num
          ++ (encodeI32LE F.coef_num ++ encodeMatrix F.feature)) := by
  refine ⟨?_, rfl⟩
  obtain ⟨fr, co, mat⟩ := F
  simp only at hfr hco hfr2 hco2 hprod hlen hvals
  have hsave : MfccEngine.saveFile ⟨fr, co, mat⟩
      = 1 :: (encodeI32LE fr ++ (encodeI32LE co ++ encodeMatrix mat)) := rfl
  rw [hsave]
  simp only [encodeI32LE, List.cons_append, List.nil_append]
  rw [MfccEngine.loadFile]
  simp only [List.length_cons, List.drop_succ_cons, List.drop_zero, List.take_succ_cons,
    List.take_zero]
  rw [if_neg (by omega)]
  have hdfr : decodeI32LE [(fr % 4294967296).toNat % 256, (fr % 4294967296).toNat / 256 % 256,
      (fr % 4294967296).toNat / 65536 % 256, (fr % 4294967296).toNat / 16777216 % 256] = fr := by
    have := decodeI32LE_encodeI32LE fr (le_of_lt hfr) hfr2
    simpa [encodeI32LE] using this
  have hdco : decodeI32LE [(co % 4294967296).toNat % 256, (co % 4294967296).toNat / 256 % 256,
      (co % 4294967296).toNat / 65536 % 256, (co % 4294967296).toNat / 16777216 % 256] = co := by
    have := decodeI32LE_encodeI32LE co (le_of_lt hco) hco2
    simpa [encodeI32LE] using this
  rw [hdfr, hdco]
  have hpos : 0 < fr * co := mul_pos hfr hco
  rw [if_neg (not_lt.2 (le_of_lt hpos))]
  have htn : (fr * co).toNat = mat.length := by rw [← hlen]; omega
  rw [htn, encodeMatrix_length]
  rw [if_neg (by omega)]
  rw [List.take_of_length_le (by rw [encodeMatrix_length])]
  rw [decodeI16List_encodeMatrix mat hvals]

/-- Claim C6 witness: the scenario E3 feature (3 frames, 4 coefficients,
values 0..11) survives the save/load round trip. -/
theorem save_load_roundtrip_witness :
    MfccEngine.loadFile (MfccEngine.saveFile ⟨3, 4, [0, 1, 2, 3, 4, 5, 6, 7, 8, 9, 10, 11]⟩)
      = some ⟨3, 4, [0, 1, 2, 3, 4, 5, 6, 7, 8, 9, 10, 11]⟩ ∧
    MfccEngine.saveFile ⟨3, 4, [0, 1, 2, 3, 4, 5, 6, 7, 8, 9, 10, 11]⟩
      = 1 :: (encodeI32LE 3 ++ (encodeI32LE 4 ++ encodeMatrix [0, 1, 2, 3, 4, 5, 6, 7, 8, 9, 10, 11])) :=
  save_load_roundtrip ⟨3, 4, [0, 1, 2, 3, 4, 5, 6, 7, 8, 9, 10, 11]⟩
    (by decide) (by decide) (by decide) (by decide) (by decide) (by decide)
    (by decide)

/-! ## MFCC configuration validation (`MfccEngine::init`) -/

/-- `MfccConfig` with the source's defaults. -/
structure MfccConfig where
  fft_num : ℤ := 512
  mel_channel : ℤ := 24
  coef_num : ℤ := 12
  pre_emphasis : ℤ := 97
  sample_rate : ℤ := 16000
  frame_time_ms : ℤ := 32
  deriving DecidableEq

/-- `MfccConfig::frame_length()`; C `int` division truncates toward
zero. -/
def MfccConfig.frame_length (c : MfccConfig) : ℤ :=
  Int.tdiv (c.frame_time_ms * c.sample_rate) 1000

/-- The esp-dsp helper `dsp_is_power_of_two` (external dependency):
`x != 0 && (x & (x - 1)) == 0`, evaluated here on the non-negative
values the caller has already range-checked. -/
def dsp_is_power_of_two (x : ℤ) : Bool :=
  x.toNat ≠ 0 && x.toNat &&& (x.toNat - 1) = 0

/-- `VerifyMfccConfig`, check for check in source order. -/
def VerifyMfccConfig (config : MfccConfig) : Bool :=
  if config.fft_num < 0 || !dsp_is_power_of_two config.fft_num then false
  else if config.mel_channel < 0 || config.coef_num < 0 || config.pre_emphasis < 0
      || config.frame_time_ms < 0 then false
  else if config.sample_rate ≠ 8000 && config.sample_rate ≠ 16000 then false
  else if config.frame_length > config.fft_num then false
  else true

/-- `MfccEngine::init` up to resource acquisition: after
`VerifyMfccConfig` succeeds, the remaining steps fail only on a null
allocation or an already-initialised FFT driver, both modelled as
succeeding, so the verdict is that of `VerifyMfccConfig`. -/
def MfccEngine.init (config : MfccConfig) : Bool :=
  VerifyMfccConfig config

/-- Claim C4 (counterexample): the otherwise-default configuration with
`coef_num = 0` — outside the claimed admissible range `1..mel_channel` —
is accepted by `MfccEngine::init`: the validation only tests
`coef_num < 0`. -/
theorem init_accepts_coef_num_zero :
    MfccEngine.init { coef_num := 0 } = true := by
  rfl

/-- Claim C4 (amended): `MfccEngine::init` rejects every configuration
with a negative `coef_num`; `coef_num = 0` and `coef_num > mel_channel`
are not rejected by the configuration validation. -/
theorem init_rejects_negative_coef_num (config : MfccConfig)
    (h : config.coef_num < 0) :
    MfccEngine.init config = false := by
  unfold MfccEngine.init VerifyMfccConfig
  split_ifs with h1 h2 <;> simp_all

/-- Claim C4 witness for the amended theorem: `coef_num = -1` is
rejected. -/
theorem init_rejects_negative_coef_num_witness :
    (-1 : ℤ) < 0 ∧ MfccEngine.init { coef_num := -1 } = false :=
  ⟨by decide, init_rejects_negative_coef_num { coef_num := -1 } (by decide)⟩

/-! ## MFCC standardisation (`MfccEngine::normalize`)

The source computes in `float`; the model uses exact rationals.  The
`sqrtf` of the variance is an abstract function argument `sq`: the
saturation property holds whatever value it returns. -/

/-- The saturating conversion at the end of `MfccEngine::normalize`:
values below `INT16_MIN` or above `INT16_MAX` are clamped, anything else
is truncated toward zero by the C cast to `int16_t`. -/
def clampI16 (v : ℚ) : ℤ :=
  if v < -32768 then -32768
  else if 32767 < v then 32767
  else if 0 ≤ v then ⌊v⌋ else ⌈v⌉

/-- `MfccEngine::normalize`: mean over all `frame_num * coef_num`
values, variance with the all-equal guard (`stddev = 1` when the sum of
squares is below `FLT_EPSILON = 2⁻²³`), then `1000·(x − μ)/σ` saturated
into `int16`.  `src` lists the `frame_num * coef_num` input values in
row-major order; `sq` models `sqrtf`. -/
def MfccEngine.normalize (sq : ℚ → ℚ) (frame_num coef_num : ℕ) (src : List ℚ) : List ℤ :=
  let n : ℚ := (frame_num * coef_num : ℕ)
  let mean_val := src.sum / n
  let sum_sq := (src.map (fun x => (x - mean_val) * (x - mean_val))).sum
  let stddev := if |sum_sq| < 1 / 2 ^ 23 then 1 else sq (sum_sq / n)
  src.map (fun x => clampI16 (1000 * (x - mean_val) / stddev))

theorem clampI16_range (w : ℚ) : -32768 ≤ clampI16 w ∧ clampI16 w ≤ 32767 := by
  unfold clampI16
  split_ifs with h1 h2 h3
  · exact ⟨le_refl _, by norm_num⟩
  · exact ⟨by norm_num, le_refl _⟩
  · refine ⟨?_, ?_⟩
    · have h0 : 0 ≤ ⌊w⌋ := Int.floor_nonneg.2 h3
      omega
    · have hlt : ⌊w⌋ < 32768 := Int.floor_lt.2 (by push_cast; linarith [le_of_not_lt h2])
      omega
  · refine ⟨?_, ?_⟩
    · have hle : (-32768 : ℚ) ≤ (⌈w⌉ : ℚ) := le_trans (le_of_not_lt h1) (Int.le_ceil w)
      exact_mod_cast hle
    · have h0 : ⌈w⌉ ≤ 0 := Int.ceil_le.2 (by push_cast; linarith [le_of_not_le h3])
      omega

/-- Claim C9: every value `MfccEngine::normalize` writes lies in
`[-32768, 32767]`: values of `1000·(src − μ)/σ` below `INT16_MIN` are
clamped to `INT16_MIN`, values above `INT16_MAX` to `INT16_MAX`, and
everything in between truncates into the same range. -/
theorem normalize_output_bounds (sq : ℚ → ℚ) (frame_num coef_num : ℕ)
    (src : List ℚ) (v : ℤ)
    (hfr : 0 < frame_num) (hco : 0 < coef_num)
    (hlen : src.length = frame_num * coef_num)
    (hv : v ∈ MfccEngine.normalize sq frame_num coef_num src) :
    -32768 ≤ v ∧ v ≤ 32767 := by
  simp only [MfccEngine.normalize, List.mem_map] at hv
  obtain ⟨x, -, rfl⟩ := hv
  exact clampI16_range _

/-- Claim C9 witness: a 1×1 all-zero input normalises to `0`, inside the
`int16` range. -/
theorem normalize_output_bounds_witness :
    ((0 : ℤ) ∈ MfccEngine.normalize (fun q => q) 1 1 [0]) ∧
    (-32768 ≤ (0 : ℤ) ∧ (0 : ℤ) ≤ 32767) := by
  have hmem : (0 : ℤ) ∈ MfccEngine.normalize (fun q => q) 1 1 [0] := by
    norm_num [MfccEngine.normalize, clampI16]
  exact ⟨hmem,
    normalize_output_bounds (fun q => q) 1 1 [0] 0 (by decide) (by decide) (by decide) hmem⟩

/-! ## VAD state machine (`simplevox_vad.cpp`)

`VadEngine::process` wraps the external per-frame classifier
`vad_process`; its verdict for the current frame enters the model as the
`Bool` argument `cls`.  `processT` additionally returns how many times
the classifier was invoked during the call (0 or 1), which the source
decides with the conditional expression at the top of `process`. -/

/-- `VadConfig`; `frame_time_ms` is the compile-time constant 10. -/
structure VadConfig where
  warmup_time_ms : ℤ := 0
  hangbefore_ms : ℤ := 100
  decision_time_ms : ℤ := 200
  hangover_ms : ℤ := 200
  sample_rate : ℤ := 16000
  deriving DecidableEq

def VadConfig.frame_length (c : VadConfig) : ℤ := Int.tdiv (10 * c.sample_rate) 1000

def VadConfig.warmup_length (c : VadConfig) : ℤ :=
  Int.tdiv (c.warmup_time_ms * c.sample_rate) 1000

def VadConfig.before_length (c : VadConfig) : ℤ :=
  Int.tdiv (c.hangbefore_ms * c.sample_rate) 1000

def VadConfig.decision_length (c : VadConfig) : ℤ :=
  Int.tdiv (c.decision_time_ms * c.sample_rate) 1000

def VadConfig.over_length (c : VadConfig) : ℤ :=
  Int.tdiv (c.hangover_ms * c.sample_rate) 1000

/-- The anonymous-namespace helper `DivCeil`. -/
def DivCeil (dividend divisor : ℤ) : ℤ := Int.tdiv (dividend + divisor - 1) divisor

inductive VadState where
  | None
  | Warmup
  | Setup
  | Silence
  | PreDetection
  | Speech
  | PostDetection
  | Detected
  deriving DecidableEq

/-- The mutable members of `VadEngine`. -/
structure VadEngine where
  config : VadConfig
  vad_state : VadState
  state_count : ℤ
  frame_count : ℤ
  has_satisfied_hangbefore : Bool
  deriving DecidableEq

/-- `VadEngine::reset`. -/
def VadEngine.reset (σ : VadEngine) : VadEngine :=
  { σ with frame_count := 0, state_count := 0, has_satisfied_hangbefore := false,
           vad_state := VadState.Warmup }

/-- `VadEngine::process` (simplevox_vad.cpp lines 96-190), instrumented
with the number of classifier invocations.  `state_count` is incremented
at the top of the call, the classifier verdict `cls` is consulted only
when `has_satisfied_hangbefore` holds (otherwise the frame counts as
non-speech and the classifier is not invoked), then the state switch
runs. -/
def VadEngine.processT (σ : VadEngine) (cls : Bool) : VadEngine × ℕ :=
  let sc := σ.state_count + 1
  let state_length := σ.config.frame_length * sc
  let clsRes : Bool × ℕ := if σ.has_satisfied_hangbefore then (cls, 1) else (false, 0)
  let isSpeech := clsRes.1
  let next :=
    match σ.vad_state with
    | VadState.Warmup =>
        if state_length ≥ σ.config.warmup_length then
          { σ with state_count := 0, vad_state := VadState.Setup }
        else { σ with state_count := sc }
    | VadState.Setup =>
        { σ with state_count := 0, vad_state := VadState.Silence }
    | VadState.Silence =>
        if !σ.has_satisfied_hangbefore then
          { σ with state_count := sc, frame_count := σ.frame_count + 1,
                   has_satisfied_hangbefore := decide (state_length ≥ σ.config.before_length) }
        else if isSpeech then
          { σ with state_count := 0, frame_count := σ.frame_count + 1,
                   vad_state := VadState.PreDetection }
        else { σ with state_count := sc }
    | VadState.PreDetection =>
        if isSpeech then
          if sc ≥ DivCeil σ.config.decision_length σ.config.frame_length then
            { σ with state_count := 0, frame_count := σ.frame_count + 1,
                     vad_state := VadState.Speech }
          else { σ with state_count := sc, frame_count := σ.frame_count + 1 }
        else
          { σ with state_count := 0, frame_count := σ.frame_count - sc,
                   vad_state := VadState.Silence }
    | VadState.Speech =>
        if isSpeech then { σ with state_count := sc, frame_count := σ.frame_count + 1 }
        else
          { σ with state_count := 0, frame_count := σ.frame_count + 1,
                   vad_state := VadState.PostDetection }
    | VadState.PostDetection =>
        if isSpeech then
          { σ with state_count := 0, frame_count := σ.frame_count + 1,
                   vad_state := VadState.Speech }
        else if sc ≥ DivCeil σ.config.over_length σ.config.frame_length then
          { σ with state_count := 0, frame_count := σ.frame_count + 1,
                   vad_state := VadState.Detected }
        else { σ with state_count := sc, frame_count := σ.frame_count + 1 }
    | VadState.Detected => { σ with state_count := sc }
    | VadState.None =>
        { σ with state_count := 0, frame_count := 0, vad_state := VadState.Warmup }
  (next, clsRes.2)

/-- `VadEngine::process` proper: the state transition of `processT`. -/
def VadEngine.process (σ : VadEngine) (cls : Bool) : VadEngine :=
  (σ.processT cls).1

/-- Claim C8: in every `process` call the classifier is invoked exactly
when `has_satisfied_hangbefore` held at the start of the call; with the
flag down the outcome of the call does not depend on the classifier
verdict at all (the frame is treated as non-speech); and `state_count`
is incremented first, so after the call it is either `0` (a branch reset
it) or the old value plus one. -/
theorem vad_classifier_gating (σ : VadEngine) (b : Bool) :
    ((σ.processT b).2 = if σ.has_satisfied_hangbefore then 1 else 0) ∧
    ({σ with has_satisfied_hangbefore := false}.processT b
        = {σ with has_satisfied_hangbefore := false}.processT false) ∧
    ((σ.processT b).1.state_count = 0 ∨
      (σ.processT b).1.state_count = σ.state_count + 1) := by
  obtain ⟨c0, st, scnt, fcnt, flag⟩ := σ
  refine ⟨?_, ?_, ?_⟩
  · cases flag <;> rfl
  · rfl
  · cases st <;> cases flag <;>
      simp only [VadEngine.processT] <;>
      (try split_ifs) <;> simp

theorem process_preserves_hangbefore (σ : VadEngine) (b : Bool)
    (h : σ.has_satisfied_hangbefore = true) :
    (σ.process b).has_satisfied_hangbefore = true := by
  obtain ⟨c0, st, scnt, fcnt, flag⟩ := σ
  simp only at h
  subst h
  cases st <;>
    simp only [VadEngine.process, VadEngine.processT] <;>
    (try split_ifs) <;>
    first
      | rfl
      | simp_all

/-- `k` further frames all classified as speech. -/
def speechRun (σ : VadEngine) : ℕ → VadEngine
  | 0 => σ
  | Nat.succ k => (speechRun σ k).process true

theorem speechRun_state (σ : VadEngine) (k : ℕ)
    (hs : σ.vad_state = VadState.Silence)
    (hb : σ.has_satisfied_hangbefore = true)
    (hstay : ∀ i, i ≤ k →
      (speechRun (σ.process true) i).vad_state = VadState.PreDetection) :
    (speechRun (σ.process true) k).has_satisfied_hangbefore = true ∧
    (speechRun (σ.process true) k).state_count = k ∧
    (speechRun (σ.process true) k).frame_count = σ.frame_count + 1 + k := by
  induction k with
  | zero =>
    obtain ⟨c0, st, scnt, fcnt, flag⟩ := σ
    simp only at hs hb
    subst hs; subst hb
    simp [speechRun, VadEngine.process, VadEngine.processT]
  | succ k ih =>
    obtain ⟨hflag, hsc, hfc⟩ :=
      ih (fun i hi => hstay i (le_trans hi (Nat.le_succ k)))
    have hst : (speechRun (σ.process true) k).vad_state = VadState.PreDetection :=
      hstay k (Nat.le_succ k)
    have hnext := hstay (k + 1) (le_refl _)
    simp only [speechRun] at hnext ⊢
    generalize hτ : speechRun (σ.process true) k = τ at hflag hsc hfc hst hnext ⊢
    obtain ⟨c0, st, scnt, fcnt, flag⟩ := τ
    simp only at hflag hsc hfc hst
    subst hst; subst hflag
    by_cases hp : DivCeil c0.decision_length c0.frame_length ≤ scnt + 1
    · simp [VadEngine.process, VadEngine.processT, hp] at hnext
    · simp only [VadEngine.process, VadEngine.processT] at hnext ⊢
      simp [hp] at hnext ⊢
      push_cast
      omega

/-- Claim C5: from any `Silence` state with the hangbefore time
satisfied, one speech frame enters `PreDetection` and any number `k` of
further speech frames that keep the machine in `PreDetection` are
followed, on the first non-speech frame, by a return to `Silence` with
`frame_count` equal to its value immediately before the transition into
`PreDetection` — the tentative frames, including the entry frame, are
exactly retracted. -/
theorem vad_predetection_retract (σ : VadEngine) (k : ℕ)
    (hs : σ.vad_state = VadState.Silence)
    (hb : σ.has_satisfied_hangbefore = true)
    (hstay : ∀ i, i ≤ k →
      (speechRun (σ.process true) i).vad_state = VadState.PreDetection) :
    ((speechRun (σ.process true) k).process false).vad_state = VadState.Silence ∧
    ((speechRun (σ.process true) k).process false).frame_count = σ.frame_count := by
  obtain ⟨hflag, hsc, hfc⟩ := speechRun_state σ k hs hb hstay
  have hst : (speechRun (σ.process true) k).vad_state = VadState.PreDetection :=
    hstay k (le_refl k)
  generalize hτ : speechRun (σ.process true) k = τ at hflag hsc hfc hst ⊢
  obtain ⟨c0, st, scnt, fcnt, flag⟩ := τ
  simp only at hflag hsc hfc hst
  subst hst; subst hflag
  simp only [VadEngine.process, VadEngine.processT]
  simp
  omega

/-- Claim C5 witness: starting in `Silence` with `frame_count = 4`, a
speech frame, two more speech frames and a non-speech frame end back in
`Silence` with `frame_count = 4` (default configuration). -/
theorem vad_predetection_retract_witness :
    ((speechRun ((⟨{}, VadState.Silence, 7, 4, true⟩ : VadEngine).process true) 2).process
        false).vad_state = VadState.Silence ∧
    ((speechRun ((⟨{}, VadState.Silence, 7, 4, true⟩ : VadEngine).process true) 2).process
        false).frame_count = 4 :=
  vad_predetection_retract ⟨{}, VadState.Silence, 7, 4, true⟩ 2 rfl rfl
    (by intro i hi; interval_cases i <;> decide)

/-- States reachable from a freshly reset engine by arbitrary classifier
outcomes. -/
inductive VadReachable (cfg : VadConfig) : VadEngine → Prop where
  | rst (σ : VadEngine) : σ.config = cfg → VadReachable cfg σ.reset
  | step (σ : VadEngine) (b : Bool) : VadReachable cfg σ → VadReachable cfg (σ.process b)

theorem vad_invariant_aux (cfg : VadConfig) (σ : VadEngine)
    (h : VadReachable cfg σ) :
    0 ≤ σ.frame_count ∧ 0 ≤ σ.state_count ∧
      (σ.vad_state = VadState.PreDetection → σ.state_count + 1 ≤ σ.frame_count) := by
  induction h with
  | rst σ0 hc => simp [VadEngine.reset]
  | step σ0 b hr ih =>
    obtain ⟨c0, st, scnt, fcnt, flag⟩ := σ0
    obtain ⟨h1, h2, h3⟩ := ih
    simp only at h1 h2 h3
    cases st <;> cases flag <;>
      simp only [VadEngine.process, VadEngine.processT] <;>
      (try split_ifs) <;>
      simp_all <;> omega

/-- Claim C10: in every state reachable from `reset()` the segment
length `frame_count` is non-negative, and in `PreDetection` it dominates
`state_count`, so the retract `frame_count -= state_count` can never
drive the segment length below zero. -/
theorem vad_frame_count_invariant (cfg : VadConfig) (σ : VadEngine)
    (h : VadReachable cfg σ) :
    0 ≤ σ.frame_count ∧
      (σ.vad_state = VadState.PreDetection → σ.state_count ≤ σ.frame_count) := by
  obtain ⟨h1, h2, h3⟩ := vad_invariant_aux cfg σ h
  exact ⟨h1, fun hp => by have := h3 hp; omega⟩

/-- Claim C10 witness: the invariant instantiated at the reset state
itself. -/
theorem vad_frame_count_invariant_witness :
    0 ≤ ((⟨{}, VadState.Silence, 5, 7, true⟩ : VadEngine).reset).frame_count ∧
      (((⟨{}, VadState.Silence, 5, 7, true⟩ : VadEngine).reset).vad_state
          = VadState.PreDetection →
        ((⟨{}, VadState.Silence, 5, 7, true⟩ : VadEngine).reset).state_count
          ≤ ((⟨{}, VadState.Silence, 5, 7, true⟩ : VadEngine).reset).frame_count) :=
  vad_frame_count_invariant {} _
    (VadReachable.rst ⟨{}, VadState.Silence, 5, 7, true⟩ rfl)

/-! ## DTW input gates (claim C7)

The cell costs delivered by `CosineDistance` lie in `0 .. 2000` (its
documentation: "0 - 2000までの値"), which enters the analysis as the
hypothesis `hc` below. -/

theorem dtwPick_cases (a b c d e f : ℕ) :
    dtwPick a b c d e f = (a, b) ∨ dtwPick a b c d e f = (c, d) ∨
      dtwPick a b c d e f = (e, f) := by
  by_cases h1 : a < c
  · by_cases h2 : e < a
    · exact Or.inr (Or.inr (by simp [dtwPick, h1, h2]))
    · exact Or.inl (by simp [dtwPick, h1, h2])
  · by_cases h2 : e < c
    · exact Or.inr (Or.inr (by simp [dtwPick, h1, h2]))
    · exact Or.inr (Or.inl (by simp [dtwPick, h1, h2]))

theorem dtwPick_bound (a b c d e f : ℕ)
    (h1 : a ≤ 4000 + 2000 * b) (h2 : c ≤ 4000 + 2000 * d)
    (h3 : e ≤ 4000 + 2000 * f) :
    (dtwPick a b c d e f).1 ≤ 4000 + 2000 * (dtwPick a b c d e f).2 := by
  rcases dtwPick_cases a b c d e f with h | h | h <;> rw [h] <;> assumption

theorem dtwBaseRowAux_length (c0 : ℕ → ℕ) :
    ∀ (rem j prevD : ℕ), (dtwBaseRowAux c0 prevD j rem).length = rem := by
  intro rem
  induction rem with
  | zero => intro j prevD; rfl
  | succ r ih => intro j prevD; simp [dtwBaseRowAux, ih]

theorem dtwRowAux_length (ci : ℕ → ℕ) (rest : List (ℕ × ℕ)) :
    ∀ (j : ℕ) (diag left : ℕ × ℕ),
      (dtwRowAux ci j diag left rest).length = rest.length + 1 := by
  induction rest with
  | nil => intro j diag left; rfl
  | cons up rest ih => intro j diag left; simp [dtwRowAux, ih]

theorem dtwRowStep_length (ci : ℕ → ℕ) (old : List (ℕ × ℕ)) :
    (dtwRowStep ci old).length = old.length := by
  cases old with
  | nil => rfl
  | cons d0 rest => simp [dtwRowStep, dtwRowAux_length]

theorem dtwIter_length (cost : ℕ → ℕ → ℕ) :
    ∀ (rem i : ℕ) (row : List (ℕ × ℕ)),
      (dtwIter cost i rem row).length = row.length := by
  intro rem
  induction rem with
  | zero => intro i row; rfl
  | succ r ih => intro i row; simp [dtwIter, ih, dtwRowStep_length]

theorem dtwBaseRowAux_bound (c0 : ℕ → ℕ) (hc : ∀ t, c0 t ≤ 2000) :
    ∀ (rem j prevD : ℕ), prevD ≤ 2000 + 2000 * j →
      ∀ p ∈ dtwBaseRowAux c0 prevD j rem, p.1 ≤ 4000 + 2000 * p.2 := by
  intro rem
  induction rem with
  | zero => intro j prevD _ p hp; simp [dtwBaseRowAux] at hp
  | succ r ih =>
    intro j prevD h p hp
    simp only [dtwBaseRowAux, List.mem_cons] at hp
    rcases hp with rfl | hp
    · have := hc j; simp; omega
    · exact ih (j + 1) (prevD + c0 j) (by have := hc j; omega) p hp

theorem dtwBaseRow_bound (c0 : ℕ → ℕ) (hc : ∀ t, c0 t ≤ 2000) (n : ℕ) :
    ∀ p ∈ dtwBaseRow c0 n, p.1 ≤ 4000 + 2000 * p.2 := by
  intro p hp
  simp only [dtwBaseRow, List.mem_cons] at hp
  rcases hp with rfl | hp
  · have := hc 0; simp; omega
  · exact dtwBaseRowAux_bound c0 hc (n - 1) 1 (2 * c0 0) (by have := hc 0; omega) p hp

theorem dtwRowAux_bound (ci : ℕ → ℕ) (hc : ∀ t, ci t ≤ 2000) :
    ∀ (rest : List (ℕ × ℕ)) (j : ℕ) (diag left : ℕ × ℕ),
      diag.1 ≤ 4000 + 2000 * diag.2 →
      left.1 ≤ 4000 + 2000 * left.2 → 1 ≤ left.2 →
      (∀ p ∈ rest, p.1 ≤ 4000 + 2000 * p.2) →
      ∀ p ∈ dtwRowAux ci j diag left rest,
        p.1 ≤ 4000 + 2000 * p.2 ∧ 1 ≤ p.2 := by
  intro rest
  induction rest with
  | nil =>
    intro j diag left _ hl hl1 _ p hp
    simp only [dtwRowAux, List.mem_singleton] at hp
    subst hp
    exact ⟨hl, hl1⟩
  | cons up rest ih =>
    intro j diag left hd hl hl1 hr p hp
    simp only [dtwRowAux, List.mem_cons] at hp
    rcases hp with rfl | hp
    · exact ⟨hl, hl1⟩
    · have hup : up.1 ≤ 4000 + 2000 * up.2 := hr up (by simp)
      have hrest : ∀ q ∈ rest, q.1 ≤ 4000 + 2000 * q.2 :=
        fun q hq => hr q (by simp [hq])
      have hsel := dtwPick_bound up.1 up.2 left.1 left.2 diag.1 diag.2 hup hl hd
      exact ih (j + 1) up
        ((dtwPick up.1 up.2 left.1 left.2 diag.1 diag.2).1 + ci j,
         (dtwPick up.1 up.2 left.1 left.2 diag.1 diag.2).2 + 1)
        hup (by have := hc j; simp; omega) (by simp) hrest p hp

theorem dtwRowStep_bound (ci : ℕ → ℕ) (hc : ∀ t, ci t ≤ 2000)
    (old : List (ℕ × ℕ)) (hold : ∀ p ∈ old, p.1 ≤ 4000 + 2000 * p.2) :
    ∀ p ∈ dtwRowStep ci old, p.1 ≤ 4000 + 2000 * p.2 := by
  cases old with
  | nil => intro p hp; simp [dtwRowStep] at hp
  | cons d0 rest =>
    intro p hp
    have hd0 := hold d0 (by simp)
    have hrest : ∀ q ∈ rest, q.1 ≤ 4000 + 2000 * q.2 :=
      fun q hq => hold q (by simp [hq])
    exact (dtwRowAux_bound ci hc rest 1 d0 (d0.1 + ci 0, d0.2 + 1) hd0
      (by have := hc 0; simp; omega) (by simp) hrest p
      (by simpa [dtwRowStep] using hp)).1

theorem dtwIter_bound (cost : ℕ → ℕ → ℕ) (hc : ∀ i j, cost i j ≤ 2000) :
    ∀ (rem i : ℕ) (row : List (ℕ × ℕ)),
      (∀ p ∈ row, p.1 ≤ 4000 + 2000 * p.2) →
      ∀ p ∈ dtwIter cost i rem row, p.1 ≤ 4000 + 2000 * p.2 := by
  intro rem
  induction rem with
  | zero => intro i row h p hp; exact h p hp
  | succ r ih =>
    intro i row h p hp
    exact ih (i + 1) (dtwRowStep (cost i) row)
      (dtwRowStep_bound (cost i) (fun t => hc i t) row h) p
      (by simpa [dtwIter] using hp)

/-- Claim C7: `calcDTW` returns `UINT32_MAX` exactly for invalid input:
unequal dimensions, a non-positive size, or a length ratio beyond 3
(`m > 3n` or `n > 3m`).  With valid input, and cell costs within the
`0 .. 2000` range of `CosineDistance`, every DP cell distance stays
within `4000 + 2000 · steps`, so the returned mean is at most `6000` and
can never collide with the sentinel (the degenerate `m = n = 1` division
by zero yields `none`, not the sentinel). -/
theorem calcDTW_sentinel_iff_invalid (cost : ℕ → ℕ → ℕ) (dim1 dim2 size1 size2 : ℤ)
    (hc : ∀ i j, cost i j ≤ 2000) :
    calcDTW cost dim1 dim2 size1 size2 = some 4294967295 ↔
      (dim1 ≠ dim2 ∨ size1 ≤ 0 ∨ size2 ≤ 0 ∨ size1 > 3 * size2 ∨ size2 > 3 * size1) := by
  unfold calcDTW
  split_ifs with h1 h2 h3
  · simp [h1]
  · refine ⟨fun _ => ?_, fun _ => rfl⟩
    rcases h2 with h | h
    · exact Or.inr (Or.inl h)
    · exact Or.inr (Or.inr (Or.inl h))
  · refine ⟨fun _ => ?_, fun _ => rfl⟩
    rcases h3 with h | h
    · exact Or.inr (Or.inr (Or.inr (Or.inl h)))
    · exact Or.inr (Or.inr (Or.inr (Or.inr h)))
  · have hrow : 0 < (dtwIter cost 1 (size1.toNat - 1) (dtwBaseRow (cost 0) size2.toNat)).length := by
      rw [dtwIter_length, dtwBaseRow, List.length_cons]
      omega
    have hne : dtwIter cost 1 (size1.toNat - 1) (dtwBaseRow (cost 0) size2.toNat) ≠ [] :=
      List.ne_nil_of_length_pos hrow
    rw [List.getLast?_eq_getLast_of_ne_nil hne]
    have hmem := List.getLast_mem hne
    have hbound := dtwIter_bound cost hc (size1.toNat - 1) 1
      (dtwBaseRow (cost 0) size2.toNat) (dtwBaseRow_bound (cost 0) (fun t => hc 0 t) _) _ hmem
    push_neg at h2 h3
    set dc := (dtwIter cost 1 (size1.toNat - 1) (dtwBaseRow (cost 0) size2.toNat)).getLast hne
      with hdc
    dsimp only
    constructor
    · intro hu
      by_cases hz : dc.2 = 0
      · rw [if_pos hz] at hu
        exact absurd hu (by simp)
      · rw [if_neg hz] at hu
        have hdiv : dc.1 / dc.2 ≤ 6000 := Nat.div_le_of_le_mul' (by omega)
        simp only [Option.some.injEq] at hu
        omega
    · intro hinv
      exfalso
      rcases hinv with h | h | h | h | h
      · exact h1 h
      all_goals omega

/-- Claim C7 witness: the `m = 1, n = 4` pair of scenario E5 (ratio 4)
is rejected with the sentinel, in agreement with the gate
characterisation. -/
theorem calcDTW_sentinel_iff_invalid_witness :
    (calcDTW (fun _ _ => 0) 12 12 1 4 = some 4294967295 ↔
      ((12 : ℤ) ≠ 12 ∨ (1 : ℤ) ≤ 0 ∨ (4 : ℤ) ≤ 0 ∨ (1 : ℤ) > 3 * 4 ∨ (4 : ℤ) > 3 * 1)) ∧
    calcDTW (fun _ _ => 0) 12 12 1 4 = some 4294967295 :=
  ⟨calcDTW_sentinel_iff_invalid (fun _ _ => 0) 12 12 1 4 (fun i j => by simp),
   by decide⟩

end SimpleVox
